import Mathlib

/-!
Shallow embedding of the Curie-calculator solver core (`src/solver.py`)
over exact rationals, together with theorems settling the frozen claims
about its specification.

Floating-point values are modelled as `ℚ`; `numpy` rounding (round half
to even) is modelled by `roundEven`; Python `dict`/`set` iteration order,
which the source never fixes, is passed in explicitly where it matters.
-/

namespace Curie

/-- Boltzmann constant in eV/K (`scipy.constants`, CODATA value used by the source). -/
def k_B : ℚ := 8617333262 / 10 ^ 14

/-- The double-precision value of `numpy.pi` used by the source, as a rational. -/
def npPi : ℚ := 3141592653589793 / 10 ^ 15

/-- Round to the nearest integer, ties to even: the rounding used by
`numpy.round` and Python's `round`. -/
def roundEven (q : ℚ) : ℤ :=
  if q - ⌊q⌋ < 1 / 2 then ⌊q⌋
  else if 1 / 2 < q - ⌊q⌋ then ⌊q⌋ + 1
  else if ⌊q⌋ % 2 = 0 then ⌊q⌋ else ⌊q⌋ + 1

/-- `numpy.round(x, 1)`: round to one decimal place. -/
def round1 (q : ℚ) : ℚ := (roundEven (q * 10) : ℚ) / 10

/-- Python `round(x, 3)`: round to three decimal places. -/
def round3 (q : ℚ) : ℚ := (roundEven (q * 1000) : ℚ) / 1000

/-! ## Configuration Validator (`get_spin`, `is_good_structure`) -/

/-- `get_spin`: read the first atom's total magnetic moment from an OUTCAR;
any read failure is swallowed by the bare `except` and yields `0`.
The I/O itself is external; its outcome is the `Option ℚ` argument. -/
def get_spin (reading : Option ℚ) : ℚ :=
  match reading with
  | some m => m
  | none => 0

/-- `is_good_structure`: a configuration is usable when its `vasprun.xml`
parses (`vasprunOk`), the three convergence flags are all set, and the
absolute moment is not below `0.9 * ref_magmom`.  File reads are external;
their outcomes are the boolean/`Option` arguments. -/
def is_good_structure (vasprunOk : Bool)
    (converged convergedElectronic convergedIonic : Bool)
    (spinReading : Option ℚ) (refMagmom : ℚ) : Bool :=
  if !vasprunOk then false
  else if !(converged && convergedElectronic && convergedIonic) then false
  else if |get_spin spinReading| < 9 / 10 * refMagmom then false
  else true

/-! ## Neighbor-Shell Vectorizer (`count_nn`, `get_nn_list`)

`count_nn` zips the neighbor elements with their distances, keeps the
magnetic species, rounds distances to 3 decimals, and tallies a signed
count per unique distance.  The unique distances live in a Python `set`,
whose iteration order the source never fixes; that order is the explicit
`setOrder` argument here (the resulting dict, hence `.values()`, lists
keys in exactly that order). -/

/-- The `magnetic_dist_lst` comprehension of `count_nn`. -/
def magneticDistList (pairs : List (String × ℚ)) (magneticAtoms : List String) :
    List (String × ℚ) :=
  (pairs.filter fun p => magneticAtoms.contains p.1).map fun p => (p.1, round3 p.2)

/-- The members of the `unique_dist` set of `count_nn` (order-free content). -/
def uniqueDistances (pairs : List (String × ℚ)) (magneticAtoms : List String) : List ℚ :=
  ((pairs.filter fun p => magneticAtoms.contains p.1).map fun p => round3 p.2).dedup

/-- The inner tally loop of `count_nn`: net signed neighbor count at one distance
(`+1` per neighbor of `magnetic_atoms[0]`, `-1` per neighbor of `magnetic_atoms[1]`). -/
def shellNet (mdl : List (String × ℚ)) (magneticAtoms : List String) (dist : ℚ) : ℤ :=
  mdl.foldl
    (fun acc p =>
      if p.2 = dist then
        if p.1 = magneticAtoms.getD 0 "" then acc + 1
        else if p.1 = magneticAtoms.getD 1 "" then acc - 1
        else acc
      else acc)
    0

/-- `count_nn` as a list of (distance, signed count) in dict order, where
`setOrder` is the iteration order of the `unique_dist` set. -/
def count_nn (setOrder : List ℚ) (pairs : List (String × ℚ))
    (magneticAtoms : List String) : List (ℚ × ℤ) :=
  setOrder.map fun dist => (dist, shellNet (magneticDistList pairs magneticAtoms) magneticAtoms dist)

/-- `get_nn_list`: the `.values()` of the `count_nn` dict, with the neutral
placeholder species `"Po"` as the "down" sublattice. -/
def get_nn_list (setOrder : List ℚ) (pairs : List (String × ℚ))
    (magneticAtom : String) : List ℤ :=
  (count_nn setOrder pairs [magneticAtom, "Po"]).map Prod.snd

/-! ## Design-Matrix Assembler (`nn_matrix_getter`, start of `sorted_matrix_getter`)

The per-structure neighbor lists are produced by external file reads; they
enter as `nnLists`, one list per good structure, in discovery order. -/

/-- `nn_matrix_getter`: truncate each neighbor list to
`good_structures_number - 1` entries and prepend the column of ones. -/
def nn_matrix_getter (nnLists : List (List ℚ)) : List (List ℚ) :=
  nnLists.map fun l => (1 : ℚ) :: l.take (nnLists.length - 1)

/-- `nn_spin_matrix = nn_matrix * spin * (spin + 1)` from `sorted_matrix_getter`:
elementwise scaling of the whole matrix, ones column included. -/
def nn_spin_matrix (nnLists : List (List ℚ)) (spin : ℚ) : List (List ℚ) :=
  (nn_matrix_getter nnLists).map fun r => r.map fun x => x * spin * (spin + 1)

/-- `full_matrix` from `sorted_matrix_getter`: append each configuration's
normalized energy as a final column. -/
def full_matrix (nnLists : List (List ℚ)) (spin : ℚ) (energies : List ℚ) :
    List (List ℚ) :=
  List.zipWith (fun r e => r ++ [e]) (nn_spin_matrix nnLists spin) energies

/-! ## Configuration Ranker (`sorted_matrix = full_matrix[np.argsort(full_matrix[:, -1])]`)

`np.argsort` is external; the source calls it with its default (quicksort)
kind.  Its documented contract — return a permutation of the row indices
along which the sort keys are ascending — is `IsArgsort`; the produced
`sorted_matrix` is `applyPerm`. -/

/-- Last column of a row-major matrix (`full_matrix[:, -1]`). -/
def lastColumn (m : List (List ℚ)) : List ℚ := m.map fun r => r.getLastD 0

/-- Row permutation by an index list (`full_matrix[p]`). -/
def applyPerm (m : List (List ℚ)) (p : List ℕ) : List (List ℚ) :=
  p.map fun i => m.getD i []

/-- The contract of `np.argsort(full_matrix[:, -1])`: `p` is a permutation of
the row indices and the keys read along `p` are ascending.  The default
(quicksort) kind promises nothing more; in particular no stability. -/
def IsArgsort (m : List (List ℚ)) (p : List ℕ) : Prop :=
  p.Perm (List.range m.length) ∧
    (p.map fun i => (lastColumn m).getD i 0).Sorted (· ≤ ·)

/-! ## Exact Solver (`exchange_coupling`, `j_vector_exact`)

`np.linalg.det` is modelled by Laplace cofactor expansion along the first
row; `np.linalg.solve` (exact solve of a nonsingular square system) by
Cramer's rule.  Both are exact over `ℚ`.  A fuel argument (always the row
count at call sites) keeps the recursion structural, hence executable. -/

/-- Cofactor expansion of the determinant along the first row, with fuel. -/
def detAux : ℕ → List (List ℚ) → ℚ
  | _, [] => 1
  | 0, _ :: _ => 0
  | fuel + 1, r :: rs =>
      ((List.range r.length).map fun j =>
        (-1 : ℚ) ^ j * r.getD j 0 * detAux fuel (rs.map fun row => row.eraseIdx j)).sum

/-- Determinant of a row-major square matrix (model of `np.linalg.det`). -/
def detL (m : List (List ℚ)) : ℚ := detAux m.length m

/-- Replace column `j` of `m` by `e` (used by Cramer's rule). -/
def replaceCol (m : List (List ℚ)) (j : ℕ) (e : List ℚ) : List (List ℚ) :=
  List.zipWith (fun row b => row.set j b) m e

/-- Model of `np.linalg.solve m e` for square nonsingular `m`: Cramer's rule. -/
def npSolve (m : List (List ℚ)) (e : List ℚ) : List ℚ :=
  (List.range m.length).map fun j => detL (replaceCol m j e) / detL m

/-- `exchange_coupling`: solve if the determinant is nonzero, else return
nothing (the Python function falls through to an implicit `None`). -/
def exchange_coupling (matrix : List (List ℚ)) (energies : List ℚ) :
    Option (List ℚ) :=
  if detL matrix ≠ 0 then some (npSolve matrix energies) else none

/-- `matrix[:i, :i]`: the leading `i × i` submatrix. -/
def leadingSquare (i : ℕ) (m : List (List ℚ)) : List (List ℚ) :=
  (m.take i).map (List.take i)

/-- `sorted_matrix[..., -1]`: the energy column. -/
def energiesOf (sm : List (List ℚ)) : List ℚ := sm.map fun r => r.getLastD 0

/-- `sorted_matrix[..., :-1]`: the coefficient block. -/
def coeffsOf (sm : List (List ℚ)) : List (List ℚ) := sm.map List.dropLast

/-- The `results` list of `j_vector_exact`: for `i = 2 .. N` try the leading
`i × i` system; keep the solution when the determinant is nonzero. -/
def exactResults (sm : List (List ℚ)) : List (List ℚ) :=
  (List.range' 2 ((coeffsOf sm).length - 1)).filterMap fun i =>
    exchange_coupling (leadingSquare i (coeffsOf sm)) ((energiesOf sm).take i)

/-- `j_vector_exact`: split each solution into `(E_geom, J-vector)` parallel lists. -/
def j_vector_exact (sm : List (List ℚ)) : List ℚ × List (List ℚ) :=
  ((exactResults sm).map fun v => v.headD 0,
   (exactResults sm).map fun v => v.drop 1)

/-! ## Least-Squares Solver (`j_vector_lstsq`)

`np.linalg.lstsq` is modelled through the normal equations
`(AᵀA) x = Aᵀ b`, solved exactly by Cramer's rule; for a full-column-rank
system this is the unique least-squares solution `numpy` returns. -/

/-- Number of columns of a row-major matrix. -/
def widthOf (m : List (List ℚ)) : ℕ := (m.headD []).length

/-- Column `j` of a row-major matrix. -/
def colL (m : List (List ℚ)) (j : ℕ) : List ℚ := m.map fun r => r.getD j 0

/-- Dot product of two lists. -/
def dotL (a b : List ℚ) : ℚ := (List.zipWith (· * ·) a b).sum

/-- The Gram matrix `AᵀA`. -/
def gram (m : List (List ℚ)) : List (List ℚ) :=
  (List.range (widthOf m)).map fun j =>
    (List.range (widthOf m)).map fun k => dotL (colL m j) (colL m k)

/-- The right-hand side `Aᵀ b` of the normal equations. -/
def gramVec (m : List (List ℚ)) (b : List ℚ) : List ℚ :=
  (List.range (widthOf m)).map fun j => dotL (colL m j) b

/-- Model of `np.linalg.lstsq m b` (full-column-rank case): solve `AᵀA x = Aᵀ b`. -/
def npLstsq (m : List (List ℚ)) (b : List ℚ) : List ℚ :=
  npSolve (gram m) (gramVec m b)

/-- `matrix[..., :i]`: all rows, leading `i` columns. -/
def leadingCols (i : ℕ) (m : List (List ℚ)) : List (List ℚ) :=
  m.map (List.take i)

/-- The `results` list of `j_vector_lstsq`: for `i = 2 .. N` fit all `N` rows
against the leading `i` columns; never skips. -/
def lstsqResults (sm : List (List ℚ)) : List (List ℚ) :=
  (List.range' 2 (sm.length - 1)).map fun i =>
    npLstsq (leadingCols i (coeffsOf sm)) (energiesOf sm)

/-- `j_vector_lstsq`: split each solution into `(E_geom, J-vector)` parallel lists. -/
def j_vector_lstsq (sm : List (List ℚ)) : List ℚ × List (List ℚ) :=
  ((lstsqResults sm).map fun v => v.headD 0,
   (lstsqResults sm).map fun v => v.drop 1)

/-- Squared-residual objective of the least-squares fit `‖A y - b‖²`
(row-major `A`, observations `b`, candidate `y`). -/
def resL (A : List (List ℚ)) (b : List ℚ) (y : List ℚ) : ℚ :=
  (List.zipWith (fun r bi => (dotL r y - bi) ^ 2) A b).sum

/-! ## Critical-Temperature Estimator (`Tc_list_getter`) -/

/-- One `T_c` value before the final rounding:
`np.abs(2 * np.pi * sum(j_vector * z_vector[:len(j_vector)]) / (3 * k_B))`. -/
def Tc_of (j z : List ℚ) : ℚ :=
  |2 * npPi * (List.zipWith (· * ·) j (z.take j.length)).sum / (3 * k_B)|

/-- `Tc_list_getter`: one `T_c` per coupling vector, the whole array rounded
to one decimal place at the end. -/
def Tc_list_getter (jList : List (List ℚ)) (z : List ℚ) : List ℚ :=
  (jList.map fun j => Tc_of j z).map round1

/-- The closed-form estimator exactly as the specification words it:
`T_c = | 2π × Σ_{m=1..k} (J_m × z_m) / (3 × k_B) |` with `z` truncated to the
first `k = |J|` entries. -/
def TcSpecFormula (j z : List ℚ) : ℚ :=
  |2 * npPi * (∑ m ∈ Finset.range j.length, j.getD m 0 * z.getD m 0) / (3 * k_B)|

/-! ## Helper lemmas -/

lemma roundEven_nonneg (q : ℚ) (h : 0 ≤ q) : 0 ≤ roundEven q := by
  have hf : (0 : ℤ) ≤ ⌊q⌋ := Int.floor_nonneg.mpr h
  unfold roundEven
  split_ifs <;> omega

lemma round1_nonneg (q : ℚ) (h : 0 ≤ q) : 0 ≤ round1 q := by
  have : (0 : ℤ) ≤ roundEven (q * 10) := roundEven_nonneg _ (by positivity)
  have : (0 : ℚ) ≤ (roundEven (q * 10) : ℚ) := by exact_mod_cast this
  unfold round1
  positivity

lemma zipWith_mul_take_sum_eq (j : List ℚ) (z : List ℚ) (h : j.length ≤ z.length) :
    (List.zipWith (· * ·) j (z.take j.length)).sum =
      ∑ m ∈ Finset.range j.length, j.getD m 0 * z.getD m 0 := by
  induction j generalizing z with
  | nil => simp
  | cons a j ih =>
    cases z with
    | nil => simp at h
    | cons b z =>
      simp only [List.length_cons, List.take_succ_cons, List.zipWith_cons_cons, List.sum_cons]
      rw [Finset.sum_range_succ']
      simp only [List.getD_cons_succ, List.getD_cons_zero]
      rw [ih z (by simpa using h)]
      ring

/-! ## Claim theorems: validator and estimator -/

/-- C10: when the reference magnetic moment cannot be read, `get_spin` yields
`0`, so the spin-magnitude test `|moment| < 0.9 * 0` never fires: every
configuration whose vasprun parses and whose convergence flags are all set is
classified valid. -/
theorem validator_vacuous_on_unreadable_reference
    (vasprunOk c ce ci : Bool) (spinReading : Option ℚ)
    (hok : vasprunOk = true) (hconv : (c && ce && ci) = true) :
    is_good_structure vasprunOk c ce ci spinReading (get_spin none) = true := by
  subst hok
  simp only [is_good_structure, get_spin, hconv, Bool.not_true, Bool.false_eq_true,
    if_false, mul_zero]
  rw [if_neg (by simp [not_lt, abs_nonneg])]

theorem validator_vacuous_witness :
    is_good_structure true true true true (some (-3)) (get_spin none) = true :=
  validator_vacuous_on_unreadable_reference true true true true (some (-3)) rfl rfl

/-- C5 counterexample: with a negative reference moment the code's test
`|moment| < 0.9 * ref_magmom` (no absolute value on the reference) differs
from the claim's `|moment| < 0.9 * |ref|`: a converged configuration with
moment `-1 = 0.5 × (-2)` satisfies the claim's invalidity condition yet the
code classifies it valid. -/
theorem validator_signed_reference_counterexample :
    is_good_structure true true true true (some (-1)) (-2) = true ∧
    |(-1 : ℚ)| < 9 / 10 * |(-2 : ℚ)| := by
  constructor
  · have h : ¬ (|(-1 : ℚ)| < 9 / 10 * (-2)) := by
      rw [abs_neg, abs_one]
      norm_num
    simp [is_good_structure, get_spin, h]
    norm_num
  · rw [abs_of_neg (by norm_num : (-1 : ℚ) < 0), abs_of_neg (by norm_num : (-2 : ℚ) < 0)]
    norm_num

/-- C5 amended: for a parseable, fully converged configuration the validator
classifies it unusable exactly when `|moment| < 0.9 * ref` with the reference
moment taken as-is (not in absolute value); the claim's `0.5×` / `0.95×`
instances hold whenever the reference moment is positive. -/
theorem validator_threshold (m ref : ℚ) :
    (is_good_structure true true true true (some m) ref = false ↔
      |m| < 9 / 10 * ref) ∧
    (0 < ref →
      is_good_structure true true true true (some (1 / 2 * ref)) ref = false ∧
      is_good_structure true true true true (some (19 / 20 * ref)) ref = true) := by
  have key : ∀ x : ℚ, is_good_structure true true true true (some x) ref =
      if |x| < 9 / 10 * ref then false else true := by
    intro x
    simp [is_good_structure, get_spin]
  refine ⟨?_, fun href => ⟨?_, ?_⟩⟩
  · rw [key]
    split_ifs with h <;> simp [h]
  · rw [key, if_pos]
    rw [abs_of_pos (by positivity)]
    linarith
  · rw [key, if_neg]
    rw [abs_of_pos (by positivity), not_lt]
    linarith

theorem validator_threshold_witness :
    (0 : ℚ) < 2 ∧
      is_good_structure true true true true (some (1 / 2 * 2)) 2 = false :=
  ⟨by norm_num, ((validator_threshold 1 2).2 (by norm_num)).1⟩

/-- C3: `Tc_list_getter` returns, for each coupling vector, exactly the
specification's closed form `|2π Σ J_m z_m / (3 k_B)|` (with `z` truncated to
the first `k` entries) rounded to one decimal place, and every returned value
is non-negative. -/
theorem tc_estimator_formula_and_nonneg (jList : List (List ℚ)) (z : List ℚ)
    (hlen : ∀ j ∈ jList, j.length ≤ z.length) :
    Tc_list_getter jList z = jList.map (fun j => round1 (TcSpecFormula j z)) ∧
    ∀ t ∈ Tc_list_getter jList z, 0 ≤ t := by
  constructor
  · simp only [Tc_list_getter, List.map_map]
    refine List.map_congr_left fun j hj => ?_
    simp only [Function.comp_apply, Tc_of, TcSpecFormula,
      zipWith_mul_take_sum_eq j z (hlen j hj)]
  · intro t ht
    simp only [Tc_list_getter, List.map_map, List.mem_map] at ht
    obtain ⟨j, _, rfl⟩ := ht
    exact round1_nonneg _ (abs_nonneg _)

theorem tc_estimator_witness :
    (∀ j ∈ [[(1 : ℚ) / 2]], j.length ≤ ([2] : List ℚ).length) ∧
    ∀ t ∈ Tc_list_getter [[(1 : ℚ) / 2]] [2], 0 ≤ t :=
  ⟨by decide, (tc_estimator_formula_and_nonneg [[(1 : ℚ) / 2]] [2] (by decide)).2⟩

/-! ## Claim theorems: assembler -/

/-- C1 counterexample: with `S = 2` (iron) and neighbor lists `[[2],[1]]`, the
assembled matrix is `[[6,12],[6,6]]`: the leading entry of the first row is
`6 = S(S+1)`, not `1` — `nn_matrix * spin * (spin + 1)` scales the ones
column too. -/
lemma nn_spin_matrix_example : nn_spin_matrix [[2], [1]] 2 = [[6, 12], [6, 6]] := by
  norm_num [nn_spin_matrix, nn_matrix_getter]

theorem assembler_leading_entry_counterexample :
    ((nn_spin_matrix [[2], [1]] 2).getD 0 []).getD 0 0 = 6 ∧ (6 : ℚ) ≠ 1 := by
  rw [nn_spin_matrix_example]
  norm_num

/-- C1 amended: row `i` of the assembled matrix is
`[1, shell_1_count_i, …, shell_{N-1}_count_i]` with EVERY entry — the leading
`1` included — multiplied by `S(S+1)`; each row's leading entry is `S(S+1)`. -/
theorem assembler_design_matrix (nnLists : List (List ℚ)) (S : ℚ) :
    nn_spin_matrix nnLists S =
      nnLists.map (fun l =>
        ((1 : ℚ) :: l.take (nnLists.length - 1)).map fun x => x * S * (S + 1)) ∧
    ∀ row ∈ nn_spin_matrix nnLists S, row.headD 0 = S * (S + 1) := by
  have hmat : nn_spin_matrix nnLists S =
      nnLists.map (fun l =>
        ((1 : ℚ) :: l.take (nnLists.length - 1)).map fun x => x * S * (S + 1)) := by
    simp [nn_spin_matrix, nn_matrix_getter, List.map_map, Function.comp]
  refine ⟨hmat, fun row hrow => ?_⟩
  rw [hmat, List.mem_map] at hrow
  obtain ⟨l, _, rfl⟩ := hrow
  simp only [List.map_cons, List.headD_cons]
  ring

theorem assembler_design_matrix_witness :
    ([6, 12] : List ℚ).headD 0 = (2 : ℚ) * (2 + 1) :=
  (assembler_design_matrix [[2], [1]] 2).2 [6, 12]
    (by rw [nn_spin_matrix_example]; simp)

/-! ## Claim theorems: underdetermined input (C9) -/

/-- C9 counterexample: with a single valid configuration both solvers return
empty solution sequences and no error of any kind — exactly the silent
"empty output masquerading as success" the claim says cannot happen. -/
theorem solvers_silent_empty_counterexample :
    j_vector_exact [[1, -5]] = ([], []) ∧ j_vector_lstsq [[1, -5]] = ([], []) := by
  constructor <;> rfl

/-- C9 amended: with fewer than 2 configurations the `i = 2 .. N` loops of
both solvers are empty, so both return `([], [])`: empty parallel sequences,
with no explicit error distinguishing this from a successful run. -/
theorem solvers_empty_when_underdetermined (sm : List (List ℚ))
    (h : sm.length ≤ 1) :
    j_vector_exact sm = ([], []) ∧ j_vector_lstsq sm = ([], []) := by
  have h1 : (coeffsOf sm).length - 1 = 0 := by simp [coeffsOf]; omega
  have h2 : sm.length - 1 = 0 := by omega
  constructor
  · simp [j_vector_exact, exactResults, h1]
  · simp [j_vector_lstsq, lstsqResults, h2]

theorem solvers_empty_witness :
    j_vector_exact [[2, 7]] = ([], []) ∧ j_vector_lstsq [[2, 7]] = ([], []) :=
  solvers_empty_when_underdetermined [[2, 7]] (by decide)

/-! ## Claim theorems: vectorizer shell order (C4) -/

/-- C4: the source never sorts `unique_dist`; the emitted vector follows the
Python set's iteration order.  For neighbor distances `8.0` and `1.0`
(CPython: `hash(8.0) mod 8 = 0`, `hash(1.0) mod 8 = 1`, so the set `{8.0, 1.0}`
iterates as `[8.0, 1.0]`) the emitted keys are `[8.0, 1.0]` — a valid
iteration order of the unique-distance set that is not ascending. -/
lemma round3_eight : round3 8 = 8 := by
  norm_num [round3, roundEven]

lemma round3_one : round3 1 = 1 := by
  norm_num [round3, roundEven]

lemma uniqueDistances_example :
    uniqueDistances [("Fe", 8), ("Fe", 1)] ["Fe", "Po"] = [8, 1] := by
  have h : uniqueDistances [("Fe", 8), ("Fe", 1)] ["Fe", "Po"] =
      ([round3 8, round3 1] : List ℚ).dedup := by
    simp [uniqueDistances]
  rw [h, round3_eight, round3_one,
    List.dedup_cons_of_not_mem (by norm_num),
    List.dedup_cons_of_not_mem (by simp), List.dedup_nil]

theorem vectorizer_set_order_not_ascending :
    (count_nn [8, 1] [("Fe", 8), ("Fe", 1)] ["Fe", "Po"]).map Prod.fst = [8, 1] ∧
    ([8, 1] : List ℚ).Perm (uniqueDistances [("Fe", 8), ("Fe", 1)] ["Fe", "Po"]) ∧
    ¬ ((count_nn [8, 1] [("Fe", 8), ("Fe", 1)] ["Fe", "Po"]).map
        Prod.fst).Sorted (· ≤ ·) := by
  have hkeys : (count_nn [8, 1] [("Fe", 8), ("Fe", 1)] ["Fe", "Po"]).map
      Prod.fst = [8, 1] := by
    simp [count_nn, List.map_map]
  refine ⟨hkeys, ?_, ?_⟩
  · rw [uniqueDistances_example]
  · intro hs
    rw [hkeys] at hs
    have h81 := (List.sorted_cons.mp hs).1 1 (by simp)
    norm_num at h81

/-! ## Claim theorems: exact solver (C2, C7) -/

lemma length_npSolve (m : List (List ℚ)) (e : List ℚ) :
    (npSolve m e).length = m.length := by
  simp [npSolve]

lemma length_leadingSquare (i : ℕ) (m : List (List ℚ)) (h : i ≤ m.length) :
    (leadingSquare i m).length = i := by
  simp [leadingSquare, h]

lemma length_coeffsOf (sm : List (List ℚ)) : (coeffsOf sm).length = sm.length := by
  simp [coeffsOf]

/-- C2: for `2 ≤ i ≤ N`, the exact solver's result list holds a solution of
size `i` (hence for subsystem size `i`) precisely when the leading `i × i`
subdeterminant is nonzero; a zero determinant yields no entry for that size
(and, structurally, no other row/column subset is ever tried). -/
theorem exact_solver_emits_iff (sm : List (List ℚ)) (i : ℕ)
    (h2 : 2 ≤ i) (hN : i ≤ sm.length) :
    (∃ v ∈ exactResults sm, v.length = i) ↔
      detL (leadingSquare i (coeffsOf sm)) ≠ 0 := by
  have hcoe : (coeffsOf sm).length = sm.length := length_coeffsOf sm
  constructor
  · rintro ⟨v, hv, hlen⟩
    rw [exactResults, List.mem_filterMap] at hv
    obtain ⟨a, ha, hfa⟩ := hv
    rw [List.mem_range'_1] at ha
    rw [exchange_coupling] at hfa
    split_ifs at hfa with hd
    · have hva := Option.some.inj hfa
      have hla : v.length = a := by
        rw [← hva, length_npSolve, length_leadingSquare a _ (by omega)]
      have hai : a = i := by omega
      rw [hai] at hd
      exact hd
  · intro hd
    refine ⟨npSolve (leadingSquare i (coeffsOf sm)) ((energiesOf sm).take i), ?_, ?_⟩
    · rw [exactResults, List.mem_filterMap]
      refine ⟨i, ?_, ?_⟩
      · rw [List.mem_range'_1]
        omega
      · simp [exchange_coupling, hd]
    · rw [length_npSolve, length_leadingSquare i _ (by omega)]

lemma detL_identity2 : detL [[(1 : ℚ), 0], [0, 1]] = 1 := by
  norm_num [detL, detAux, List.range_succ]

theorem exact_solver_emits_witness :
    ∃ v ∈ exactResults [[(1 : ℚ), 0, -10], [0, 1, -9]], v.length = 2 :=
  (exact_solver_emits_iff [[(1 : ℚ), 0, -10], [0, 1, -9]] 2 (by norm_num)
    (by simp)).mpr
    (by
      have h : leadingSquare 2 (coeffsOf [[(1 : ℚ), 0, -10], [0, 1, -9]]) =
          [[1, 0], [0, 1]] := rfl
      rw [h, detL_identity2]
      norm_num)

lemma pairwise_lt_range' (n s : ℕ) : (List.range' s n).Pairwise (· < ·) := by
  induction n generalizing s with
  | zero => simp
  | succ n ih =>
    rw [List.range'_succ]
    exact List.Pairwise.cons
      (fun b hb => by rw [List.mem_range'_1] at hb; omega) (ih (s + 1))

lemma pairwise_filterMap_solution_lengths (f : ℕ → Option (List ℚ)) (l : List ℕ) :
    l.Pairwise (· < ·) → (∀ x ∈ l, 2 ≤ x) →
      (∀ i ∈ l, ∀ v, f i = some v → v.length = i) →
      (l.filterMap f).Pairwise fun u v => u.length < v.length ∧ 2 ≤ u.length := by
  induction l with
  | nil =>
    intro _ _ _
    simp
  | cons a l ih =>
    intro hp hb hf
    rw [List.filterMap_cons]
    have ihl := ih hp.of_cons (fun x hx => hb x (List.mem_cons_of_mem _ hx))
      (fun i hi v hv => hf i (List.mem_cons_of_mem _ hi) v hv)
    cases hfa : f a with
    | none => exact ihl
    | some v =>
      refine List.Pairwise.cons ?_ ihl
      intro w hw
      rw [List.mem_filterMap] at hw
      obtain ⟨b, hbmem, hfb⟩ := hw
      have hab : a < b := List.rel_of_pairwise_cons hp hbmem
      have hva := hf a (List.mem_cons_self a l) v hfa
      have hwb := hf b (List.mem_cons_of_mem _ hbmem) w hfb
      have h2a := hb a (List.mem_cons_self a l)
      omega

lemma exactResults_pairwise (sm : List (List ℚ)) :
    (exactResults sm).Pairwise fun u v => u.length < v.length ∧ 2 ≤ u.length := by
  rw [exactResults]
  refine pairwise_filterMap_solution_lengths _ _ (pairwise_lt_range' _ 2) ?_ ?_
  · intro x hx
    rw [List.mem_range'_1] at hx
    omega
  · intro i hi v hv
    rw [List.mem_range'_1] at hi
    rw [exchange_coupling] at hv
    split_ifs at hv with hd
    rw [← Option.some.inj hv, length_npSolve, length_leadingSquare i _ (by omega)]

/-- C7: for every size `2 ≤ i ≤ N` at which the leading subdeterminant is
nonzero, the exact solver emits the pair (first solution component as
geometric energy, remaining components as coupling vector) for that size,
the coupling vector has length exactly `i - 1`, and the coupling-vector
lengths across the emitted sequence are strictly increasing. -/
theorem exact_solver_entry_shape (sm : List (List ℚ)) (i : ℕ)
    (h2 : 2 ≤ i) (hN : i ≤ sm.length)
    (hdet : detL (leadingSquare i (coeffsOf sm)) ≠ 0) :
    ((j_vector_exact sm).2.map List.length).Pairwise (· < ·) ∧
    ((npSolve (leadingSquare i (coeffsOf sm)) ((energiesOf sm).take i)).headD 0,
      (npSolve (leadingSquare i (coeffsOf sm)) ((energiesOf sm).take i)).drop 1) ∈
        (j_vector_exact sm).1.zip (j_vector_exact sm).2 ∧
    ((npSolve (leadingSquare i (coeffsOf sm)) ((energiesOf sm).take i)).drop 1).length
      = i - 1 := by
  have hcoe : (coeffsOf sm).length = sm.length := length_coeffsOf sm
  have hpw := exactResults_pairwise sm
  refine ⟨?_, ?_, ?_⟩
  · rw [j_vector_exact]
    rw [List.pairwise_map, List.pairwise_map]
    refine hpw.imp ?_
    intro u v hr
    obtain ⟨hlt, hu2⟩ := hr
    simp only [List.length_drop]
    omega
  · rw [j_vector_exact]
    rw [List.zip_map']
    apply List.mem_map_of_mem
    rw [exactResults, List.mem_filterMap]
    refine ⟨i, ?_, ?_⟩
    · rw [List.mem_range'_1]
      omega
    · simp [exchange_coupling, hdet]
  · rw [List.length_drop, length_npSolve, length_leadingSquare i _ (by omega)]

lemma detL_sample2 : detL [[(1 : ℚ), 2], [1, 1]] = -1 := by
  norm_num [detL, detAux, List.range_succ]

theorem exact_solver_entry_shape_witness :
    ((npSolve (leadingSquare 2 (coeffsOf [[(1 : ℚ), 2, -10], [1, 1, -9]]))
        ((energiesOf [[(1 : ℚ), 2, -10], [1, 1, -9]]).take 2)).drop 1).length
      = 2 - 1 :=
  (exact_solver_entry_shape [[(1 : ℚ), 2, -10], [1, 1, -9]] 2 (by norm_num)
    (by simp)
    (by
      have h : leadingSquare 2 (coeffsOf [[(1 : ℚ), 2, -10], [1, 1, -9]]) =
          [[1, 2], [1, 1]] := rfl
      rw [h, detL_sample2]
      norm_num)).2.2

/-! ## Claim theorems: ranker (C8) -/

lemma applyPerm_range (m : List (List ℚ)) : applyPerm m (List.range m.length) = m := by
  apply List.ext_getElem
  · simp [applyPerm]
  · intro i h1 h2
    simp only [applyPerm, List.getElem_map, List.getElem_range]
    exact List.getD_eq_getElem m [] h2

/-- C8 counterexample: on rows `[[1,5],[2,5]]` — both energies equal to `5` —
the permutation `[1, 0]` satisfies everything `np.argsort`'s default
(non-stable) kind promises, yet lists the tied rows in reversed discovery
order; nothing in the code forces the stable tie order the claim asserts. -/
theorem ranker_stability_counterexample :
    IsArgsort [[1, 5], [2, 5]] [1, 0] ∧
    (lastColumn [[1, 5], [2, 5]]).getD 0 0 = (lastColumn [[1, 5], [2, 5]]).getD 1 0 ∧
    ([1, 0] : List ℕ).getD 1 0 < ([1, 0] : List ℕ).getD 0 0 := by
  refine ⟨⟨?_, ?_⟩, rfl, by decide⟩
  · have hr : List.range ([[(1 : ℚ), 5], [2, 5]].length) = [0, 1] := by decide
    rw [hr]
    exact List.Perm.swap 0 1 []
  · have hmap : ([1, 0].map fun i =>
        (lastColumn [[(1 : ℚ), 5], [2, 5]]).getD i 0) = [5, 5] := rfl
    rw [hmap]
    simp [List.sorted_cons]

/-- C8 amended: for every permutation satisfying the `np.argsort` contract,
the ranked matrix is a permutation of the original rows (each keeping its
own energy) and its energy column is ascending; the order among equal-energy
rows is whatever the (non-stable, default-kind) argsort returned, not
necessarily discovery order. -/
theorem ranker_sorts_rows (m : List (List ℚ)) (p : List ℕ) (h : IsArgsort m p) :
    (applyPerm m p).Perm m ∧ (lastColumn (applyPerm m p)).Sorted (· ≤ ·) := by
  obtain ⟨hperm, hsorted⟩ := h
  constructor
  · have hp := hperm.map (fun i => m.getD i [])
    have hm : (List.range m.length).map (fun i => m.getD i []) = m :=
      applyPerm_range m
    rw [hm] at hp
    exact hp
  · have hcol : lastColumn (applyPerm m p) =
        p.map fun i => (lastColumn m).getD i 0 := by
      simp only [lastColumn, applyPerm, List.map_map]
      refine List.map_congr_left fun i hi => ?_
      have him : i < m.length := by
        have := hperm.mem_iff.mp hi
        simpa [List.mem_range] using this
      simp only [Function.comp_apply]
      rw [List.getD_eq_getElem m [] him,
        List.getD_eq_getElem _ 0 (by simpa [lastColumn] using him), List.getElem_map]
    rw [hcol]
    exact hsorted

theorem ranker_sorts_rows_witness :
    (applyPerm [[1, 5], [2, 7]] [0, 1]).Perm [[(1 : ℚ), 5], [2, 7]] ∧
    (lastColumn (applyPerm [[1, 5], [2, 7]] [0, 1])).Sorted (· ≤ ·) :=
  ranker_sorts_rows [[1, 5], [2, 7]] [0, 1]
    (by
      constructor
      · have hr : List.range ([[(1 : ℚ), 5], [2, 7]].length) = [0, 1] := by decide
        rw [hr]
      · have hmap : ([0, 1].map fun i =>
            (lastColumn [[(1 : ℚ), 5], [2, 7]]).getD i 0) = [5, 7] := rfl
        rw [hmap]
        simp [List.sorted_cons]
        norm_num)

/-! ## Bridge: list-level linear algebra vs `Mathlib.Matrix` (used for C6)

`toMat`/`toVec` read a row-major list matrix into a `Matrix (Fin n) (Fin k) ℚ`;
on well-formed (rectangular) inputs `detL` agrees with `Matrix.det`, and the
Cramer-rule `npSolve` really solves nonsingular square systems. -/

def toMat (m : List (List ℚ)) (n k : ℕ) : Matrix (Fin n) (Fin k) ℚ :=
  Matrix.of fun i j => (m.getD i []).getD j 0

def toVec (e : List ℚ) (n : ℕ) : Fin n → ℚ := fun i => e.getD i 0

lemma list_sum_range_eq (k : ℕ) (f : ℕ → ℚ) :
    ((List.range k).map f).sum = ∑ j ∈ Finset.range k, f j := by
  induction k with
  | zero => simp
  | succ k ih =>
    rw [List.range_succ, List.map_append, List.sum_append, Finset.sum_range_succ, ih]
    simp

lemma detL_cons (r : List ℚ) (rs : List (List ℚ)) :
    detL (r :: rs) = ((List.range r.length).map fun j =>
      (-1 : ℚ) ^ j * r.getD j 0 * detL (rs.map fun row => row.eraseIdx j)).sum := by
  show detAux (r :: rs).length (r :: rs) = _
  rw [List.length_cons, detAux]
  refine congrArg List.sum (List.map_congr_left fun j _ => ?_)
  have hlen : (rs.map fun row => row.eraseIdx j).length = rs.length :=
    List.length_map rs _
  rw [detL, hlen]

lemma detL_eq_det : ∀ (n : ℕ) (m : List (List ℚ)), m.length = n →
    (∀ r ∈ m, r.length = n) → detL m = (toMat m n n).det := by
  intro n
  induction n with
  | zero =>
    intro m hm _
    have hnil : m = [] := List.length_eq_zero.mp hm
    subst hnil
    rw [Matrix.det_fin_zero]
    rfl
  | succ n ih =>
    intro m hm hr
    obtain ⟨r, rs, rfl⟩ : ∃ r rs, m = r :: rs := by
      cases m with
      | nil => simp at hm
      | cons a l => exact ⟨a, l, rfl⟩
    have hrlen : r.length = n + 1 := hr r (List.mem_cons_self r rs)
    have hrslen : rs.length = n := by simpa using hm
    rw [detL_cons, Matrix.det_succ_row_zero, hrlen, list_sum_range_eq,
      Finset.sum_range fun j => (-1 : ℚ) ^ j * r.getD j 0 *
        detL (rs.map fun row => row.eraseIdx j)]
    refine Finset.sum_congr rfl fun j _ => ?_
    have hminor_rows : ∀ row ∈ rs.map fun row => row.eraseIdx (j : ℕ),
        row.length = n := by
      intro row hrow
      rw [List.mem_map] at hrow
      obtain ⟨row0, hmem, rfl⟩ := hrow
      have h0 : row0.length = n + 1 := hr row0 (List.mem_cons_of_mem _ hmem)
      rw [List.length_eraseIdx, if_pos (by omega)]
      omega
    rw [ih (rs.map fun row => row.eraseIdx (j : ℕ)) (by simp [hrslen]) hminor_rows]
    have hM0 : toMat (r :: rs) (n + 1) (n + 1) 0 j = r.getD (j : ℕ) 0 := rfl
    have hsub : toMat (rs.map fun row => row.eraseIdx (j : ℕ)) n n =
        (toMat (r :: rs) (n + 1) (n + 1)).submatrix Fin.succ j.succAbove := by
      ext i k
      have hi : (i : ℕ) < (rs.map fun row => row.eraseIdx (j : ℕ)).length := by
        simp [hrslen]
      have hirs : (i : ℕ) < rs.length := by rw [hrslen]; exact i.isLt
      have hrow0 : rs[(i : ℕ)].length = n + 1 :=
        hr rs[(i : ℕ)] (List.mem_cons_of_mem _ (List.getElem_mem hirs))
      have hke : (k : ℕ) < (rs[(i : ℕ)].eraseIdx (j : ℕ)).length := by
        rw [List.length_eraseIdx, if_pos (by omega), hrow0]
        exact Nat.lt_of_lt_of_le k.isLt (by omega)
      have hL : toMat (rs.map fun row => row.eraseIdx (j : ℕ)) n n i k =
          (rs[(i : ℕ)].eraseIdx (j : ℕ)).getD (k : ℕ) 0 := by
        show ((rs.map fun row => row.eraseIdx (j : ℕ)).getD (i : ℕ) []).getD (k : ℕ) 0 = _
        rw [List.getD_eq_getElem _ [] hi, List.getElem_map]
      rw [hL, List.getD_eq_getElem _ 0 hke, List.getElem_eraseIdx]
      rw [Matrix.submatrix_apply]
      have hR : toMat (r :: rs) (n + 1) (n + 1) i.succ (j.succAbove k) =
          rs[(i : ℕ)].getD ((j.succAbove k : Fin (n + 1)) : ℕ) 0 := by
        show ((r :: rs).getD ((i : ℕ) + 1) []).getD _ 0 = _
        rw [List.getD_cons_succ, List.getD_eq_getElem _ [] hirs]
      rw [hR]
      by_cases hkj : (k : ℕ) < (j : ℕ)
      · rw [dif_pos hkj]
        have hsa : j.succAbove k = k.castSucc :=
          Fin.succAbove_of_castSucc_lt j k (by rw [Fin.lt_def, Fin.coe_castSucc]; exact hkj)
        rw [hsa, Fin.coe_castSucc,
          List.getD_eq_getElem _ 0 (by omega : (k : ℕ) < rs[(i : ℕ)].length)]
      · rw [dif_neg hkj]
        have hsa : j.succAbove k = k.succ :=
          Fin.succAbove_of_le_castSucc j k
            (by rw [Fin.le_def, Fin.coe_castSucc]; omega)
        rw [hsa, Fin.val_succ,
          List.getD_eq_getElem _ 0 (by omega : (k : ℕ) + 1 < rs[(i : ℕ)].length)]
    rw [hM0, hsub]

lemma length_replaceCol (m : List (List ℚ)) (j : ℕ) (e : List ℚ)
    (h : m.length = e.length) : (replaceCol m j e).length = m.length := by
  simp [replaceCol, h]

lemma rows_replaceCol (m : List (List ℚ)) (j : ℕ) (e : List ℚ) (n : ℕ)
    (hr : ∀ r ∈ m, r.length = n) :
    ∀ r ∈ replaceCol m j e, r.length = n := by
  intro r hrmem
  have hrmem' : r ∈ List.zipWith (fun row b => row.set j b) m e := hrmem
  obtain ⟨i, hi, hieq⟩ := List.mem_iff_getElem.mp hrmem'
  rw [List.getElem_zipWith] at hieq
  rw [← hieq, List.length_set]
  exact hr _ (List.getElem_mem _)

lemma toMat_replaceCol (m : List (List ℚ)) (e : List ℚ) (n : ℕ) (j : Fin n)
    (hm : m.length = n) (hr : ∀ r ∈ m, r.length = n) (he : e.length = n) :
    toMat (replaceCol m (j : ℕ) e) n n =
      (toMat m n n).updateColumn j (toVec e n) := by
  ext i k
  have hi : (i : ℕ) < (List.zipWith (fun row b => row.set (j : ℕ) b) m e).length := by
    rw [List.length_zipWith]
    omega
  have him : (i : ℕ) < m.length := by omega
  have hrowlen : m[(i : ℕ)].length = n := hr _ (List.getElem_mem him)
  have hL : toMat (replaceCol m (j : ℕ) e) n n i k =
      (m[(i : ℕ)].set (j : ℕ) e[(i : ℕ)]).getD (k : ℕ) 0 := by
    show ((replaceCol m (j : ℕ) e).getD (i : ℕ) []).getD (k : ℕ) 0 = _
    rw [replaceCol, List.getD_eq_getElem _ [] hi, List.getElem_zipWith]
  rw [hL, Matrix.updateColumn_apply]
  by_cases hkj : k = j
  · rw [if_pos hkj, hkj]
    rw [List.getD_eq_getElem _ 0
      (by rw [List.length_set, hrowlen]; exact j.isLt)]
    rw [List.getElem_set_self (by rw [List.length_set, hrowlen]; exact j.isLt)]
    show _ = e.getD (i : ℕ) 0
    rw [List.getD_eq_getElem _ 0 (by omega)]
  · rw [if_neg hkj]
    have hkj' : (j : ℕ) ≠ (k : ℕ) := fun h => hkj (Fin.ext h.symm)
    rw [List.getD_eq_getElem _ 0 (by rw [List.length_set, hrowlen]; exact k.isLt)]
    rw [List.getElem_set_ne hkj']
    show _ = (m.getD (i : ℕ) []).getD (k : ℕ) 0
    rw [List.getD_eq_getElem _ [] him, List.getD_eq_getElem _ 0 (by omega)]

lemma toVec_npSolve (m : List (List ℚ)) (e : List ℚ) (n : ℕ) (hm : m.length = n) :
    toVec (npSolve m e) n =
      fun j : Fin n => detL (replaceCol m (j : ℕ) e) / detL m := by
  funext j
  show (npSolve m e).getD (j : ℕ) 0 = _
  rw [npSolve, List.getD_eq_getElem _ 0 (by simp [hm]), List.getElem_map,
    List.getElem_range]

/-- On a nonsingular well-formed square system, the Cramer-rule model of
`np.linalg.solve` really solves it: `A x = e`. -/
lemma npSolve_solves (m : List (List ℚ)) (e : List ℚ) (n : ℕ)
    (hm : m.length = n) (hr : ∀ r ∈ m, r.length = n) (he : e.length = n)
    (hdet : detL m ≠ 0) :
    (toMat m n n).mulVec (toVec (npSolve m e) n) = toVec e n := by
  have hdet' : (toMat m n n).det = detL m := (detL_eq_det n m hm hr).symm
  have hx : toVec (npSolve m e) n =
      (detL m)⁻¹ • Matrix.cramer (toMat m n n) (toVec e n) := by
    rw [toVec_npSolve m e n hm]
    funext j
    rw [Pi.smul_apply, smul_eq_mul, Matrix.cramer_apply]
    rw [← toMat_replaceCol m e n j hm hr he]
    rw [← detL_eq_det n (replaceCol m (j : ℕ) e)
      (by rw [length_replaceCol m _ e (by omega)]; exact hm)
      (rows_replaceCol m _ e n hr)]
    rw [div_eq_mul_inv, mul_comm]
  rw [hx, Matrix.mulVec_smul, Matrix.mulVec_cramer, hdet', smul_smul,
    inv_mul_cancel₀ hdet, one_smul]

lemma dotL_eq_sum_range (a : List ℚ) : ∀ (b : List ℚ), a.length = b.length →
    dotL a b = ∑ i ∈ Finset.range a.length, a.getD i 0 * b.getD i 0 := by
  induction a with
  | nil =>
    intro b _
    simp [dotL]
  | cons x a ih =>
    intro b h
    cases b with
    | nil => simp at h
    | cons y b =>
      simp only [dotL, List.zipWith_cons_cons, List.sum_cons, List.length_cons]
      rw [Finset.sum_range_succ']
      simp only [List.getD_cons_succ, List.getD_cons_zero]
      have hab := ih b (by simpa using h)
      rw [dotL] at hab
      rw [hab]
      ring

lemma dotL_eq_dotProduct (a b : List ℚ) (n : ℕ) (ha : a.length = n)
    (hb : b.length = n) :
    dotL a b = Matrix.dotProduct (toVec a n) (toVec b n) := by
  rw [dotL_eq_sum_range a b (by omega), ha,
    Finset.sum_range fun i => a.getD i 0 * b.getD i 0]
  rfl

lemma length_colL (m : List (List ℚ)) (j : ℕ) : (colL m j).length = m.length := by
  simp [colL]

lemma widthOf_eq (m : List (List ℚ)) (k : ℕ) (hne : m ≠ [])
    (hr : ∀ r ∈ m, r.length = k) : widthOf m = k := by
  cases m with
  | nil => exact absurd rfl hne
  | cons r rs => exact hr r (List.mem_cons_self r rs)

lemma toVec_colL (m : List (List ℚ)) (j : ℕ) (n : ℕ) (hm : m.length = n) :
    toVec (colL m j) n = fun i : Fin n => toMat m n (j + 1) i ⟨j, by omega⟩ := by
  funext i
  show (colL m j).getD (i : ℕ) 0 = (m.getD (i : ℕ) []).getD j 0
  rw [colL, List.getD_eq_getElem _ 0 (by simp [hm]), List.getElem_map,
    List.getD_eq_getElem _ [] (by omega)]

lemma length_gram (m : List (List ℚ)) : (gram m).length = widthOf m := by
  simp [gram]

lemma length_gramVec (m : List (List ℚ)) (b : List ℚ) :
    (gramVec m b).length = widthOf m := by
  simp [gramVec]

lemma rows_gram (m : List (List ℚ)) :
    ∀ r ∈ gram m, r.length = widthOf m := by
  intro r hrmem
  rw [gram, List.mem_map] at hrmem
  obtain ⟨j, _, rfl⟩ := hrmem
  simp

lemma toMat_gram (A : List (List ℚ)) (N k : ℕ)
    (hA : A.length = N) (hw : widthOf A = k) :
    toMat (gram A) k k = (toMat A N k).transpose * toMat A N k := by
  ext j l
  have hL : toMat (gram A) k k j l = dotL (colL A (j : ℕ)) (colL A (l : ℕ)) := by
    show ((gram A).getD (j : ℕ) []).getD (l : ℕ) 0 = _
    rw [gram, hw, List.getD_eq_getElem _ [] (by simp),
      List.getElem_map, List.getElem_range,
      List.getD_eq_getElem _ 0 (by simp),
      List.getElem_map, List.getElem_range]
  rw [hL, dotL_eq_dotProduct (colL A (j : ℕ)) (colL A (l : ℕ)) N
    (by rw [length_colL, hA]) (by rw [length_colL, hA])]
  rw [Matrix.mul_apply]
  simp only [Matrix.dotProduct, Matrix.transpose_apply]
  refine Finset.sum_congr rfl fun i _ => ?_
  have hjcol : toVec (colL A (j : ℕ)) N i = toMat A N k i j := by
    show (colL A (j : ℕ)).getD (i : ℕ) 0 = (A.getD (i : ℕ) []).getD (j : ℕ) 0
    rw [colL, List.getD_eq_getElem _ 0 (by simp [hA]), List.getElem_map,
      List.getD_eq_getElem _ [] (by omega)]
  have hlcol : toVec (colL A (l : ℕ)) N i = toMat A N k i l := by
    show (colL A (l : ℕ)).getD (i : ℕ) 0 = (A.getD (i : ℕ) []).getD (l : ℕ) 0
    rw [colL, List.getD_eq_getElem _ 0 (by simp [hA]), List.getElem_map,
      List.getD_eq_getElem _ [] (by omega)]
  rw [hjcol, hlcol]

lemma toVec_gramVec (A : List (List ℚ)) (b : List ℚ) (N k : ℕ)
    (hA : A.length = N) (hb : b.length = N) (hw : widthOf A = k) :
    toVec (gramVec A b) k = (toMat A N k).transpose.mulVec (toVec b N) := by
  funext j
  have hL : toVec (gramVec A b) k j = dotL (colL A (j : ℕ)) b := by
    show (gramVec A b).getD (j : ℕ) 0 = _
    rw [gramVec, hw, List.getD_eq_getElem _ 0 (by simp),
      List.getElem_map, List.getElem_range]
  rw [hL, dotL_eq_dotProduct (colL A (j : ℕ)) b N (by rw [length_colL, hA]) hb]
  show _ = Matrix.dotProduct ((toMat A N k).transpose j) (toVec b N)
  simp only [Matrix.dotProduct, Matrix.transpose_apply]
  refine Finset.sum_congr rfl fun i _ => ?_
  have hjcol : toVec (colL A (j : ℕ)) N i = toMat A N k i j := by
    show (colL A (j : ℕ)).getD (i : ℕ) 0 = (A.getD (i : ℕ) []).getD (j : ℕ) 0
    rw [colL, List.getD_eq_getElem _ 0 (by simp [hA]), List.getElem_map,
      List.getD_eq_getElem _ [] (by omega)]
  rw [hjcol]

/-- A solution of the normal equations globally minimizes the squared
residual of the over-determined system. -/
lemma normal_solution_minimizes {N k : ℕ} (A : Matrix (Fin N) (Fin k) ℚ)
    (b : Fin N → ℚ) (x y : Fin k → ℚ)
    (hx : (A.transpose * A).mulVec x = A.transpose.mulVec b) :
    Matrix.dotProduct (A.mulVec x - b) (A.mulVec x - b) ≤
      Matrix.dotProduct (A.mulVec y - b) (A.mulVec y - b) := by
  have hyx : A.mulVec y - b = (A.mulVec x - b) + A.mulVec (y - x) := by
    rw [Matrix.mulVec_sub]
    abel
  have hcross : Matrix.dotProduct (A.mulVec x - b) (A.mulVec (y - x)) = 0 := by
    rw [Matrix.dotProduct_mulVec]
    have hzero : Matrix.vecMul (A.mulVec x - b) A = 0 := by
      rw [← Matrix.mulVec_transpose]
      rw [Matrix.mulVec_sub, Matrix.mulVec_mulVec, hx]
      simp
    rw [hzero, Matrix.zero_dotProduct]
  rw [hyx, Matrix.dotProduct_add, Matrix.add_dotProduct, Matrix.add_dotProduct,
    Matrix.dotProduct_comm (A.mulVec (y - x)) (A.mulVec x - b), hcross]
  have hsq : 0 ≤ Matrix.dotProduct (A.mulVec (y - x)) (A.mulVec (y - x)) := by
    rw [Matrix.dotProduct]
    exact Finset.sum_nonneg fun i _ => mul_self_nonneg _
  linarith

lemma sum_zipWith_sq_eq_range (g : List ℚ → ℚ) (A : List (List ℚ)) :
    ∀ (b : List ℚ), A.length = b.length →
    (List.zipWith (fun r bi => (g r - bi) ^ 2) A b).sum =
      ∑ i ∈ Finset.range A.length, (g (A.getD i []) - b.getD i 0) ^ 2 := by
  induction A with
  | nil =>
    intro b _
    simp
  | cons r A ih =>
    intro b h
    cases b with
    | nil => simp at h
    | cons bi b =>
      simp only [List.zipWith_cons_cons, List.sum_cons, List.length_cons]
      rw [Finset.sum_range_succ']
      simp only [List.getD_cons_succ, List.getD_cons_zero]
      rw [ih b (by simpa using h)]
      ring

lemma resL_eq_dotProduct (A : List (List ℚ)) (b y : List ℚ) (N k : ℕ)
    (hA : A.length = N) (hb : b.length = N) (hr : ∀ r ∈ A, r.length = k)
    (hy : y.length = k) :
    resL A b y =
      Matrix.dotProduct ((toMat A N k).mulVec (toVec y k) - toVec b N)
        ((toMat A N k).mulVec (toVec y k) - toVec b N) := by
  rw [resL, sum_zipWith_sq_eq_range (fun r => dotL r y) A b (by omega), hA,
    Finset.sum_range fun i => (dotL (A.getD i []) y - b.getD i 0) ^ 2]
  simp only [Matrix.dotProduct, Pi.sub_apply]
  refine Finset.sum_congr rfl fun i _ => ?_
  have hrow : (A.getD (i : ℕ) []).length = k := by
    rw [List.getD_eq_getElem _ [] (by omega)]
    exact hr _ (List.getElem_mem (by omega))
  have hdot : dotL (A.getD (i : ℕ) []) y =
      (toMat A N k).mulVec (toVec y k) i := by
    rw [dotL_eq_dotProduct (A.getD (i : ℕ) []) y k hrow hy]
    rfl
  rw [hdot, ← sq]
  rfl

/-! ## Claim theorem: least-squares solver (C6) -/

/-- C6: for `N ≥ 2` validated configurations, the least-squares solver emits
exactly one solution per column count `i = 2 .. N` (never skipping), the
entry for `i` is the fit of all `N` rows against the leading `i` columns,
split as (geometric energy = first component, coupling vector = the
remaining `i - 1` components); and whenever the `i`-column Gram matrix is
nonsingular that solution minimizes the squared residual over all candidate
coefficient vectors. -/
theorem lstsq_solver_total_and_minimizing (sm : List (List ℚ)) (N : ℕ)
    (hN : sm.length = N) (h2 : 2 ≤ N) (hrows : ∀ r ∈ sm, r.length = N + 1)
    (i : ℕ) (h2i : 2 ≤ i) (hiN : i ≤ N) :
    (j_vector_lstsq sm).1.length = N - 1 ∧
    (j_vector_lstsq sm).2.length = N - 1 ∧
    (j_vector_lstsq sm).1.getD (i - 2) 0 =
      (npLstsq (leadingCols i (coeffsOf sm)) (energiesOf sm)).headD 0 ∧
    (j_vector_lstsq sm).2.getD (i - 2) [] =
      (npLstsq (leadingCols i (coeffsOf sm)) (energiesOf sm)).drop 1 ∧
    ((npLstsq (leadingCols i (coeffsOf sm)) (energiesOf sm)).drop 1).length
      = i - 1 ∧
    (detL (gram (leadingCols i (coeffsOf sm))) ≠ 0 →
      ∀ y : List ℚ, y.length = i →
        resL (leadingCols i (coeffsOf sm)) (energiesOf sm)
            (npLstsq (leadingCols i (coeffsOf sm)) (energiesOf sm)) ≤
          resL (leadingCols i (coeffsOf sm)) (energiesOf sm) y) := by
  subst hN
  have hAlen : (leadingCols i (coeffsOf sm)).length = sm.length := by
    simp [leadingCols, coeffsOf]
  have hArows : ∀ r ∈ leadingCols i (coeffsOf sm), r.length = i := by
    intro r hrmem
    rw [leadingCols, List.mem_map] at hrmem
    obtain ⟨r0, hr0, rfl⟩ := hrmem
    rw [coeffsOf, List.mem_map] at hr0
    obtain ⟨row, hrow, rfl⟩ := hr0
    have := hrows row hrow
    simp only [List.length_take, List.length_dropLast, this]
    omega
  have hblen : (energiesOf sm).length = sm.length := by simp [energiesOf]
  have hwidth : widthOf (leadingCols i (coeffsOf sm)) = i := by
    refine widthOf_eq _ i ?_ hArows
    intro hnil
    rw [hnil] at hAlen
    simp at hAlen
    omega
  have hsollen : (npLstsq (leadingCols i (coeffsOf sm)) (energiesOf sm)).length
      = i := by
    rw [npLstsq, length_npSolve, length_gram, hwidth]
  have hib : i - 2 < sm.length - 1 := by omega
  refine ⟨?_, ?_, ?_, ?_, ?_, ?_⟩
  · simp [j_vector_lstsq, lstsqResults]
  · simp [j_vector_lstsq, lstsqResults]
  · show ((lstsqResults sm).map fun v => v.headD 0).getD (i - 2) 0 = _
    rw [lstsqResults, List.getD_eq_getElem _ 0 (by simp [hib])]
    simp only [List.getElem_map, List.getElem_range']
    rw [show 2 + 1 * (i - 2) = i from by omega]
  · show ((lstsqResults sm).map fun v => v.drop 1).getD (i - 2) [] = _
    rw [lstsqResults, List.getD_eq_getElem _ [] (by simp [hib])]
    simp only [List.getElem_map, List.getElem_range']
    rw [show 2 + 1 * (i - 2) = i from by omega]
  · rw [List.length_drop, hsollen]
  · intro hdet y hy
    have hNE := npSolve_solves (gram (leadingCols i (coeffsOf sm)))
      (gramVec (leadingCols i (coeffsOf sm)) (energiesOf sm)) i
      (by rw [length_gram, hwidth])
      (fun r hrmem => by rw [rows_gram _ r hrmem, hwidth])
      (by rw [length_gramVec, hwidth]) hdet
    rw [toMat_gram (leadingCols i (coeffsOf sm)) sm.length i hAlen hwidth,
      toVec_gramVec (leadingCols i (coeffsOf sm)) (energiesOf sm) sm.length i
        hAlen hblen hwidth] at hNE
    have hmin := normal_solution_minimizes
      (toMat (leadingCols i (coeffsOf sm)) sm.length i)
      (toVec (energiesOf sm) sm.length)
      (toVec (npSolve (gram (leadingCols i (coeffsOf sm)))
        (gramVec (leadingCols i (coeffsOf sm)) (energiesOf sm))) i)
      (toVec y i) hNE
    rw [resL_eq_dotProduct (leadingCols i (coeffsOf sm)) (energiesOf sm)
        (npLstsq (leadingCols i (coeffsOf sm)) (energiesOf sm)) sm.length i
        hAlen hblen hArows hsollen,
      resL_eq_dotProduct (leadingCols i (coeffsOf sm)) (energiesOf sm) y
        sm.length i hAlen hblen hArows hy]
    exact hmin

lemma gram_sample : gram (leadingCols 2 (coeffsOf [[(1 : ℚ), 2, -10], [1, 1, -9]]))
    = [[2, 3], [3, 5]] := by
  norm_num [gram, widthOf, colL, dotL, List.range_succ, leadingCols, coeffsOf]

lemma detL_gram_sample :
    detL (gram (leadingCols 2 (coeffsOf [[(1 : ℚ), 2, -10], [1, 1, -9]]))) ≠ 0 := by
  rw [gram_sample]
  have h : detL [[(2 : ℚ), 3], [3, 5]] = 1 := by
    norm_num [detL, detAux, List.range_succ]
  rw [h]
  norm_num

theorem lstsq_solver_witness :
    resL (leadingCols 2 (coeffsOf [[(1 : ℚ), 2, -10], [1, 1, -9]]))
        (energiesOf [[(1 : ℚ), 2, -10], [1, 1, -9]])
        (npLstsq (leadingCols 2 (coeffsOf [[(1 : ℚ), 2, -10], [1, 1, -9]]))
          (energiesOf [[(1 : ℚ), 2, -10], [1, 1, -9]])) ≤
      resL (leadingCols 2 (coeffsOf [[(1 : ℚ), 2, -10], [1, 1, -9]]))
        (energiesOf [[(1 : ℚ), 2, -10], [1, 1, -9]]) [0, 0] :=
  ((lstsq_solver_total_and_minimizing [[(1 : ℚ), 2, -10], [1, 1, -9]] 2 rfl
      (by norm_num) (by decide) 2 (by norm_num) (by norm_num)).2.2.2.2.2
    detL_gram_sample) [0, 0] rfl

end Curie
